import Mathlib

/-!
# Verification development for `seccomp/secbrot.cc`

A shallow embedding of the sandboxed Brotli command-line tool: the container
header (`parse_hex`, `writeHeader`, `parseHeader`), the file-descriptor adapters
(`BrotliFdIn::Read`, `BrotliFdOut::Write`), the streaming pump (`Decompress`),
the memory report (`print_memory_stats`) and the part of `main` that runs after
the syscall filter has been requested.

Conventions of the embedding:
* a byte (`uint8_t`, `unsigned char`) and a `char` are natural numbers; a store
  into a byte cell is taken `% 256`;
* `size_t` is 64 bits wide: arithmetic on it is taken `% 2 ^ 64`;
* a C array is a `List Nat`; a NUL-terminated string is the list of its
  characters, and reading the cell at its length yields the terminator `0`;
* external collaborators (the sink behind `brotli::BrotliOut`, the codec, the
  kernel's `read` and `write`) are parameters of the definitions.
-/

namespace Secbrot

/-! ## Container header -/

/-- The constant `sizeof(header_template)`. -/
def header_size : Nat := 24

/-- The array `header_template[24] = {'b','r',0,'t'}`; the remaining cells of
the aggregate are zero-initialised. -/
def header_template : List Nat :=
  [98, 114, 0, 116] ++ List.replicate 20 0

/-- The function `parse_hex`: the value of one hexadecimal digit, `0` for any
other character. -/
def parse_hex (v : Nat) : Nat :=
  if v ≤ 57 ∧ v ≥ 48 then (v - 48) % 256        -- '0' .. '9'
  else if v ≤ 102 ∧ v ≥ 97 then (v - 97 + 10) % 256   -- 'a' .. 'f'
  else if v ≤ 70 ∧ v ≥ 65 then (v - 65 + 10) % 256    -- 'A' .. 'F'
  else 0

/-- The cell `s[i]` of a NUL-terminated string `s`. -/
def cstr (s : List Nat) (i : Nat) : Nat := s.getD i 0

/-- The `for` loop of `writeHeader` that packs the revision string into the
fingerprint field, started at loop index `i`.  The first argument bounds the
number of loop tests; the loop makes at most 17 of them, since the index is
tested against `sizeof(header_bin) - magic_number_size - uncompressed_size_size`. -/
def fingerprintLoop (revision : List Nat) : Nat → Nat → List Nat → List Nat
  | 0, _, header_bin => header_bin
  | fuel + 1, i, header_bin =>
    if cstr revision (i * 2) ≠ 0 ∧ cstr revision (i * 2 + 1) ≠ 0
        ∧ i < header_size - 4 - 4 then
      fingerprintLoop revision fuel (i + 1)
        (header_bin.set (4 + i)
          ((16 * parse_hex (cstr revision (i * 2))
            + parse_hex (cstr revision (i * 2 + 1))) % 256))
    else header_bin

/-- The packed value of character pair `i` of the revision string. -/
def pairByte (r : List Nat) (i : Nat) : Nat :=
  16 * parse_hex (cstr r (2 * i)) + parse_hex (cstr r (2 * i + 1))

/-- The array `header_bin` as `writeHeader` has filled it when it calls the
sink. -/
def writeHeader_bytes (revision : List Nat) (size : Nat) : List Nat :=
  let header_bin := header_template
  let header_bin := header_bin.set (header_size - 4) ((size &&& 255) % 256)
  let header_bin := header_bin.set (header_size - 3) (((size >>> 8) &&& 255) % 256)
  let header_bin := header_bin.set (header_size - 2) (((size >>> 16) &&& 255) % 256)
  let header_bin := header_bin.set (header_size - 1) (((size >>> 32) &&& 255) % 256)
  fingerprintLoop revision 17 0 header_bin

/-- The function `writeHeader(size, output)`.  The sink `output` is a
state-passing `Write`; the result is whatever that call returns. -/
def writeHeader {σ : Type} (revision : List Nat) (size : Nat)
    (output_Write : σ → List Nat → Bool × σ) (st : σ) : Bool × σ :=
  output_Write st (writeHeader_bytes revision size)

/-- A sink that accepts every block and keeps the blocks it was passed, in
order. -/
def recordingSink : List (List Nat) → List Nat → Bool × List (List Nat) :=
  fun log block => (true, log ++ [block])

/-- What `parseHeader` leaves behind: its return value and the two
out-parameters. -/
structure ParsedHeader where
  ok : Bool
  outputSize : Nat
  zlib0 : Bool
deriving DecidableEq, Repr

/-- The function `parseHeader(data, &outputSize, &zlib0)`; `zlib0` is the value
the flag holds on entry. -/
def parseHeader (data : List Nat) (zlib0 : Bool) : ParsedHeader :=
  let outputSize := 0
  let outputSize := data.getD (header_size - 4) outputSize
  let outputSize := (outputSize + 256 * data.getD (header_size - 3) 0 % 2 ^ 64) % 2 ^ 64
  let outputSize := (outputSize + 256 * 256 * data.getD (header_size - 2) 0 % 2 ^ 64) % 2 ^ 64
  let outputSize :=
    (outputSize + 256 * 256 * 256 * data.getD (header_size - 1) 0 % 2 ^ 64) % 2 ^ 64
  let zlib0 := if data.getD 3 0 = 122 then true else zlib0
  { ok := data.getD 0 0 = 98 && data.getD 1 0 = 114 && data.getD 2 0 = 0
            && (data.getD 3 0 = 122 || data.getD 3 0 = 116)
    outputSize := outputSize
    zlib0 := zlib0 }

/-! ## Byte source: `BrotliFdIn<kFileBufferSize>` -/

/-- The constant `kFileBufferSize`, `1 << 16`. -/
def kFileBufferSize : Nat := 65536

/-- The bytes `mem[0 .. len)` of a memory region given as a map from offsets to
bytes. -/
def bufRead (mem : Nat → Nat) (len : Nat) : List Nat := (List.range len).map mem

/-- The region `mem` after `bytes` has been stored at offset `off`. -/
def writeAt (mem : Nat → Nat) (off : Nat) (bytes : List Nat) : Nat → Nat :=
  fun i => if off ≤ i ∧ i < off + bytes.length then bytes.getD (i - off) 0 else mem i

/-- One answer of the kernel to `read(fd, buf, n)`: it has `chunk` ready (and
hands over at most `n` bytes of it, keeping the rest for the next call), or the
call is interrupted (`-1`, `errno == EINTR`), or it fails (`-1`, any other
`errno`).  When the answers are used up the file is at its end and `read`
returns `0`. -/
inductive ReadResp where
  | data (chunk : List Nat)
  | interrupted
  | error
deriving DecidableEq, Repr

/-- The object `brotli_in`: the descriptor (as the kernel's pending answers),
the buffer `buf_` and the flag `eof_`. -/
structure BrotliFdIn where
  fd_ : List ReadResp
  buf_ : Nat → Nat
  eof_ : Bool

/-- What a call of `Read` yields: whether the returned pointer is `buf_` (true)
or `NULL` (false), the value of `*bytes_read` after the call, and the object. -/
structure ReadResult where
  nonNull : Bool
  bytes_read : Nat
  self : BrotliFdIn

/-- The conversion of an `ssize_t` to `size_t`. -/
def to_size_t (ret : Int) : Nat := (ret % (2 : Int) ^ 64).toNat

/-- The loop `while ((ret = read(fd_, buf_, n)) < 0 && errno == EINTR) {}`:
the value of `ret` it ends with, the buffer and the descriptor. -/
def read_retry : List ReadResp → (Nat → Nat) → Nat → Int × (Nat → Nat) × List ReadResp
  | [], buf_, _ => (0, buf_, [])
  | ReadResp.interrupted :: rest, buf_, n => read_retry rest buf_ n
  | ReadResp.error :: rest, buf_, _ => (-1, buf_, rest)
  | ReadResp.data chunk :: rest, buf_, n =>
    (((chunk.take n).length : Nat), writeAt buf_ 0 (chunk.take n),
      if n < chunk.length then ReadResp.data (chunk.drop n) :: rest else rest)

/-- The method `BrotliFdIn::Read(n, &bytes_read)`; `bytes_read` is the value the
out-parameter holds on entry. -/
def BrotliFdIn.Read (self : BrotliFdIn) (n : Nat) (bytes_read : Nat) : ReadResult :=
  if n = 0 then
    { nonNull := !self.eof_, bytes_read := bytes_read, self := self }
  else
    let n := if n > kFileBufferSize then kFileBufferSize else n
    let r := read_retry self.fd_ self.buf_ n
    let bytes_read := to_size_t r.1
    if bytes_read = 0 then
      { nonNull := false, bytes_read := bytes_read,
        self := { fd_ := r.2.2, buf_ := r.2.1, eof_ := true } }
    else
      { nonNull := true, bytes_read := bytes_read,
        self := { fd_ := r.2.2, buf_ := r.2.1, eof_ := self.eof_ } }

/-- The number of bytes the descriptor will still deliver: the sum of the
lengths of the chunks among the kernel's pending answers. -/
def totalBytes : List ReadResp → Nat
  | [] => 0
  | ReadResp.data chunk :: rest => chunk.length + totalBytes rest
  | _ :: rest => totalBytes rest

/-- None of the kernel's pending answers is an error other than an
interruption. -/
def noReadError : List ReadResp → Bool
  | [] => true
  | ReadResp.error :: _ => false
  | _ :: rest => noReadError rest

/-- The method `BrotliFdIn::is_eof`. -/
def BrotliFdIn.is_eof (self : BrotliFdIn) : Bool := self.eof_

/-! ## Byte sink: `BrotliFdOut` -/

/-- One answer of the kernel to `write(fd, to_write, n)`: it accepts up to `k`
bytes (it returns `min k n`, never more than it was offered), the call is
interrupted (`-1`, `errno == EINTR`), it fails (`-1`, any other `errno`), or it
returns `0`. -/
inductive WriteResp where
  | accepted (k : Nat)
  | interrupted
  | fatal
  | zero
deriving DecidableEq, Repr

/-- The value `write` returns for an answer when `n` bytes are offered. -/
def sys_write_ret (r : WriteResp) (n : Nat) : Int :=
  match r with
  | WriteResp.accepted k => ((min k n : Nat) : Int)
  | WriteResp.interrupted => -1
  | WriteResp.fatal => -1
  | WriteResp.zero => 0

/-- Whether `errno == EINTR` after an answer. -/
def sys_write_eintr (r : WriteResp) : Bool :=
  match r with
  | WriteResp.interrupted => true
  | _ => false

/-- What a call of `BrotliFdOut::Write` yields: its return value and the bytes
the channel took, in the order it took them. -/
structure WriteResult where
  ok : Bool
  delivered : List Nat
deriving DecidableEq, Repr

/-- The loop of `BrotliFdOut::Write` from a state in which `to_write` points at
the bytes `to_write`, `n` bytes remain and the channel has taken `sent` so far.
The result is `none` when the kernel's answers are used up before the loop
ends. -/
def Write_loop : List WriteResp → List Nat → Nat → List Nat → Option WriteResult
  | [], _, n, sent => if n > 0 then none else some { ok := true, delivered := sent }
  | r :: rest, to_write, n, sent =>
    if n > 0 then
      let ret := sys_write_ret r n
      if ret < 0 then
        if sys_write_eintr r then Write_loop rest to_write n sent
        else some { ok := false, delivered := sent }
      else if ret = 0 then some { ok := false, delivered := sent }
      else
        Write_loop rest (to_write.drop ret.toNat) (to_size_t ((n : Int) - ret))
          (sent ++ to_write.take ret.toNat)
    else some { ok := true, delivered := sent }

/-- The method `BrotliFdOut::Write(buf, n)` against the kernel's answers `fd`. -/
def BrotliFdOut.Write (fd : List WriteResp) (buf : List Nat) (n : Nat) : Option WriteResult :=
  Write_loop fd buf n []

/-- An answer other than an interruption. -/
def WriteResp.notInterrupted (r : WriteResp) : Bool :=
  match r with
  | WriteResp.interrupted => false
  | _ => true

/-- The number of bytes a run of answers takes when none of them ends the
call: the sum of the accepted counts. -/
def acceptedTotal : List WriteResp → Nat
  | [] => 0
  | WriteResp.accepted k :: rest => k + acceptedTotal rest
  | _ :: rest => acceptedTotal rest

/-- An answer that takes at least one byte or is an interruption. -/
def WriteResp.progresses (r : WriteResp) : Bool :=
  match r with
  | WriteResp.accepted k => decide (0 < k)
  | WriteResp.interrupted => true
  | _ => false

/-- An answer that ends the call in failure: a fatal error or a write of zero
bytes. -/
def WriteResp.stops (r : WriteResp) : Bool :=
  match r with
  | WriteResp.fatal => true
  | WriteResp.zero => true
  | WriteResp.accepted k => decide (k = 0)
  | WriteResp.interrupted => false

/-! ## Streaming pump: `Decompress` -/

/-- The codec's result codes (`BrotliResult`). -/
inductive BrotliResult where
  | BROTLI_RESULT_ERROR
  | BROTLI_RESULT_SUCCESS
  | BROTLI_RESULT_NEEDS_MORE_INPUT
  | BROTLI_RESULT_NEEDS_MORE_OUTPUT
deriving DecidableEq, Repr

open BrotliResult

/-- What one call of `BrotliDecompressStream` does, as the codec decides it: the
result code, how far it advances `next_in`, the bytes it stores at `next_out`,
and its new session state. -/
structure CodecStep (κ : Type) where
  result : BrotliResult
  consumed : Nat
  produced : List Nat
  state : κ

/-- The external function `BrotliDecompressStream`: from the session state, the
value of `available_in`, the memory at `next_in` and the value of
`available_out`, one `CodecStep`. -/
abbrev Codec (κ : Type) := κ → Nat → (Nat → Nat) → Nat → CodecStep κ

/-- A sink behind `brotli::BrotliOut&`: its `Write` method, state-passing. -/
abbrev Sink (σ : Type) := σ → List Nat → Bool × σ

/-- The local variables of `Decompress` and the two objects it drives, with
three records of what has happened so far: `blocks`, each block passed to
`fdout.Write` with the value the call returned; `produced`, the bytes the codec
has stored into `output`; `fed`, the input window offered to the codec at each
call. -/
structure PumpState (σ κ : Type) where
  fdin : BrotliFdIn
  fdout : σ
  s : κ
  available_in : Nat
  next_in : Nat
  available_out : Nat
  next_out : Nat
  output : Nat → Nat
  result : BrotliResult
  blocks : List (List Nat × Bool)
  produced : List Nat
  fed : List (List Nat)

/-- The statement `result = BrotliDecompressStream(&available_in, &next_in,
&available_out, &next_out, &total_out, &s)`.  The codec moves `next_in` by at
most `available_in` and stores at most `available_out` bytes. -/
def callCodec {σ κ : Type} (codec : Codec κ) (st : PumpState σ κ) : PumpState σ κ :=
  let window := fun i => st.fdin.buf_ (st.next_in + i)
  let c := codec st.s st.available_in window st.available_out
  let consumed := min c.consumed st.available_in
  let stored := c.produced.take st.available_out
  { st with
    s := c.state
    available_in := st.available_in - consumed
    next_in := st.next_in + consumed
    available_out := st.available_out - stored.length
    next_out := st.next_out + stored.length
    output := writeAt st.output st.next_out stored
    result := c.result
    produced := st.produced ++ stored
    fed := st.fed ++ [bufRead window st.available_in] }

/-- One pass through the body of `while (1)` in `Decompress`.  The flag is true
when the pass leaves the loop by `break`. -/
def loopBody {σ κ : Type} (codec : Codec κ) (Write : Sink σ) (st : PumpState σ κ) :
    PumpState σ κ × Bool :=
  if st.result = BROTLI_RESULT_NEEDS_MORE_INPUT then
    if st.fdin.is_eof then (st, true)
    else
      let r := st.fdin.Read kFileBufferSize st.available_in
      let st := { st with fdin := r.self, available_in := r.bytes_read, next_in := 0 }
      if !r.nonNull then (st, true)
      else (callCodec codec st, false)
  else if st.result = BROTLI_RESULT_NEEDS_MORE_OUTPUT then
    let block := bufRead st.output kFileBufferSize
    let w := Write st.fdout block
    let st := { st with fdout := w.2, blocks := st.blocks ++ [(block, w.1)] }
    if !w.1 then (st, true)
    else
      let st := { st with available_out := kFileBufferSize, next_out := 0 }
      (callCodec codec st, false)
  else (st, true)

/-- The loop `while (1)` of `Decompress`, cut off after `fuel` passes: the state
reached and whether the loop has been left. -/
def runLoop {σ κ : Type} (codec : Codec κ) (Write : Sink σ) :
    Nat → PumpState σ κ → PumpState σ κ × Bool
  | 0, st => (st, false)
  | fuel + 1, st =>
    let r := loopBody codec Write st
    if r.2 then r else runLoop codec Write fuel r.1

/-- The statement after the loop: `if (next_out != output) fdout.Write(output,
next_out - output)`.  The value `Write` returns is not looked at. -/
def drain {σ κ : Type} (Write : Sink σ) (st : PumpState σ κ) : PumpState σ κ :=
  if st.next_out ≠ 0 then
    let block := bufRead st.output st.next_out
    let w := Write st.fdout block
    { st with fdout := w.2, blocks := st.blocks ++ [(block, w.1)] }
  else st

/-- How a call of `Decompress` ends: it returns `true`, or it calls `exit(1)`
after printing `text` to the error stream. -/
inductive PumpEnd where
  | returned_true
  | exit_1 (text : String)
deriving DecidableEq, Repr

/-- The tail of `Decompress`: the classification of `result`. -/
def classify (result : BrotliResult) : PumpEnd :=
  if result = BROTLI_RESULT_NEEDS_MORE_OUTPUT then PumpEnd.exit_1 "failed to write output\n"
  else if result ≠ BROTLI_RESULT_SUCCESS then PumpEnd.exit_1 "corrupt input\n"
  else PumpEnd.returned_true

/-- The state `Decompress` starts its loop in; `output0` is the content of the
freshly allocated array `output`, `s0` the initialised codec session. -/
def pumpInit {σ κ : Type} (fdin : BrotliFdIn) (fdout : σ) (s0 : κ) (output0 : Nat → Nat) :
    PumpState σ κ :=
  { fdin := fdin, fdout := fdout, s := s0
    available_in := 0, next_in := 0
    available_out := kFileBufferSize, next_out := 0
    output := output0
    result := BROTLI_RESULT_NEEDS_MORE_INPUT
    blocks := [], produced := [], fed := [] }

/-- The function `Decompress(fdin, fdout)`: the final state and how the call
ends, or `none` when the loop has not been left after `fuel` passes. -/
def Decompress {σ κ : Type} (codec : Codec κ) (Write : Sink σ) (fuel : Nat)
    (fdin : BrotliFdIn) (fdout : σ) (s0 : κ) (output0 : Nat → Nat) :
    Option (PumpState σ κ × PumpEnd) :=
  let r := runLoop codec Write fuel (pumpInit fdin fdout s0 output0)
  if r.2 then
    let st := drain Write r.1
    some (st, classify st.result)
  else none

/-- The bytes `Decompress` has passed to `fdout.Write` so far: the blocks
joined in the order of the calls. -/
def PumpState.written {σ κ : Type} (st : PumpState σ κ) : List Nat :=
  (st.blocks.map Prod.fst).flatten

/-- Every call of `fdout.Write` so far has returned true. -/
def PumpState.allWritesOk {σ κ : Type} (st : PumpState σ κ) : Prop :=
  ∀ b ∈ st.blocks, b.2 = true

instance PumpState.decidableAllWritesOk {σ κ : Type} (st : PumpState σ κ) :
    Decidable st.allWritesOk :=
  inferInstanceAs (Decidable (∀ b ∈ st.blocks, b.2 = true))

/-- A codec that signals `NEEDS_MORE_OUTPUT` only when it has used up the
output space it was given (it stores at least `available_out` bytes' worth, of
which the pump's buffer takes `available_out`). -/
def FillsBeforeNeedsOutput {κ : Type} (codec : Codec κ) : Prop :=
  ∀ s available_in window available_out,
    (codec s available_in window available_out).result = BROTLI_RESULT_NEEDS_MORE_OUTPUT →
      available_out ≤ (codec s available_in window available_out).produced.length

/-- The invariant of the pump's loop for a codec that fills the buffer before it
asks for more output: the buffer's fill level and free space add up to its
size, a pending `NEEDS_MORE_OUTPUT` means the buffer is full, and, as long as
every write has succeeded, the bytes written followed by the bytes pending in
the buffer are the bytes the codec has stored. -/
def PumpInv {σ κ : Type} (st : PumpState σ κ) : Prop :=
  st.next_out + st.available_out = kFileBufferSize ∧
  (st.result = BROTLI_RESULT_NEEDS_MORE_OUTPUT → st.available_out = 0) ∧
  (st.allWritesOk → st.written ++ bufRead st.output st.next_out = st.produced)

/-- A codec that stores the byte `7`, consumes its input and signals success at
every call. -/
def codecOneByte : Codec Unit :=
  fun _ available_in _ _ =>
    { result := BROTLI_RESULT_SUCCESS, consumed := available_in, produced := [7], state := () }

/-- A codec that at its first call stores the byte `7` and signals
`NEEDS_MORE_OUTPUT` although the output buffer is not full, and at every later
call signals success without storing anything.  The session state tells
whether the first call has been made. -/
def codecEarlyFlush : Codec Bool :=
  fun called available_in _ _ =>
    if called then
      { result := BROTLI_RESULT_SUCCESS, consumed := available_in, produced := [], state := true }
    else
      { result := BROTLI_RESULT_NEEDS_MORE_OUTPUT, consumed := available_in, produced := [7],
        state := true }

/-- A codec that at its first call fills all the output space it is given with
the byte `9` and signals `NEEDS_MORE_OUTPUT`, and at every later call stores the
byte `7` and signals success. -/
def codecFill : Codec Bool :=
  fun called available_in _ available_out =>
    if called then
      { result := BROTLI_RESULT_SUCCESS, consumed := available_in, produced := [7],
        state := true }
    else
      { result := BROTLI_RESULT_NEEDS_MORE_OUTPUT, consumed := available_in,
        produced := List.replicate available_out 9, state := true }

/-- A codec that consumes whatever it is offered, stores nothing and signals
success. -/
def codecAcceptAll : Codec Unit :=
  fun _ available_in _ _ =>
    { result := BROTLI_RESULT_SUCCESS, consumed := available_in, produced := [], state := () }

/-- A codec that rejects its input: it signals an error at every call. -/
def codecReject : Codec Unit :=
  fun _ _ _ _ =>
    { result := BROTLI_RESULT_ERROR, consumed := 0, produced := [], state := () }

/-- A sink whose every `Write` fails. -/
def sinkFails : Sink Unit := fun st _ => (false, st)

/-- A sink whose every `Write` succeeds. -/
def sinkAccepts : Sink Unit := fun st _ => (true, st)

/-- A source whose descriptor holds the given answers, with a zeroed buffer. -/
def sourceOf (fd : List ReadResp) : BrotliFdIn :=
  { fd_ := fd, buf_ := fun _ => 0, eof_ := false }

/-! ## Memory report: `print_memory_stats` -/

/-- The array `data` of `print_memory_stats` with its terminator. -/
def stats_template : List Char :=
  "XXXXXXXXXXXXXXXXXX bytes allocated\n".toList ++ [Char.ofNat 0]

/-- The `for` loop of `print_memory_stats` with `passes` passes left: the final
cursor (an offset into `data`, signed so that a step before the start of the
array would show) and the array. -/
def digitLoop : Nat → Nat → Int → List Char → Int × List Char
  | 0, _, cursor, data => (cursor, data)
  | passes + 1, memory, cursor, data =>
    let cursor := cursor - 1
    let data := data.set cursor.toNat (Char.ofNat (('0'.toNat + memory % 10) % 256))
    let memory := memory / 10
    if memory = 0 then (cursor, data) else digitLoop passes memory cursor data

/-- The C string that starts at `data + cursor`: the characters up to the
terminator. -/
def c_str_from (data : List Char) (cursor : Int) : List Char :=
  (data.drop cursor.toNat).takeWhile (fun c => c ≠ Char.ofNat 0)

/-- The function `print_memory_stats` for an allocator count `memory`: where the
cursor ends and the text handed to `write(2, ...)`. -/
def print_memory_stats (memory : Nat) : Int × String :=
  let r := digitLoop 17 memory 18 stats_template
  (r.1, String.mk (c_str_from r.2 r.1))

/-! ## The body of `main` from the jail request on -/

/-- The exit codes `main` passes to `custom_exit`. -/
inductive ExitCode where
  | SUCCESS
  | ASSERTION_FAILURE
  | OOM
  | STREAM_INCONSISTENT
  | JAIL_NOT_STARTED
deriving DecidableEq, Repr

/-- How one pass of the `repeat` loop of `main` ends: through `custom_exit`,
through `exit(status)`, by a failed `assert`, by a `memcpy` of more bytes than
the header array holds, or by reaching the `Close` calls at the end of the
pass. -/
inductive Ending where
  | custom_exit (code : ExitCode)
  | exit (status : Nat)
  | assert_failed
  | memcpy_overrun
  | closed
deriving DecidableEq, Repr

/-- How `BrotliCompress` ends: it returns true, returns false, or throws
`std::bad_alloc`. -/
inductive CompressEnd where
  | ok
  | failed
  | bad_alloc
deriving DecidableEq, Repr

/-- The variables `ParseArgv` has set that the pass reads. -/
structure Config where
  decompress : Bool
  prependHeader : Bool
  doZlib0 : Bool
  outputSize : Nat
  verbose : Bool
  enforce_jail : Bool

/-- The collaborators of one pass: the value `installStrictSyscallFilter`
returns, the count `memmgr_size_allocated` reports, the string `revision`, how
`BrotliCompress` ends, the codec behind `BrotliDecompressStream` with its
initial session, the content of a fresh `output` array, the `Write` of
`brotli_out`, and the `Write`, `setFullFileSize` and `Sync` of the
`Zlib0Writer` wrapped around it. -/
structure World (σ κ : Type) where
  jailed : Bool
  memory : Nat
  revision : List Nat
  compress : CompressEnd
  codec : Codec κ
  s0 : κ
  output0 : Nat → Nat
  out_Write : Sink σ
  zwr_Write : Sink σ
  zwr_setFullFileSize : Nat → σ → σ
  zwr_Sync : σ → Bool

/-- What one pass leaves to observe: how it ended, the texts written to the
error stream in order, whether `unlink(output_path)` was called, and the input
windows offered to the codec. -/
structure Run where
  ending : Ending
  stderr : List String
  unlinked : Bool
  fed : List (List Nat)
deriving DecidableEq, Repr

/-- The loop `while (n < header_size)` of `main`, with `passes` passes left:
`inr` of the object and the header bytes once 24 bytes are in, `inl` of the
ending when the loop ends the process.  Each pass adds at least one byte, so 24
passes are enough. -/
def readHeader : Nat → BrotliFdIn → List Nat → Ending ⊕ (BrotliFdIn × List Nat)
  | 0, brotli_in, header => Sum.inr (brotli_in, header)
  | passes + 1, brotli_in, header =>
    let n := header.length
    if n < header_size then
      let r := brotli_in.Read (header_size - n) 0
      let tmp := r.bytes_read
      if tmp = 0 then Sum.inl (Ending.custom_exit ExitCode.STREAM_INCONSISTENT)
      else if header_size - n < tmp then Sum.inl Ending.memcpy_overrun
      else readHeader passes r.self (header ++ bufRead r.self.buf_ tmp)
    else Sum.inr (brotli_in, header)

/-- The end of a pass after the work is done: the memory report when `verbose`,
`custom_exit(SUCCESS)` when jailed, the `Close` calls otherwise. -/
def finishPass (jailed verbose : Bool) (memory : Nat) (stderr : List String)
    (fed : List (List Nat)) : Run :=
  let stderr := if verbose then stderr ++ [(print_memory_stats memory).2] else stderr
  { ending := if jailed then Ending.custom_exit ExitCode.SUCCESS else Ending.closed
    stderr := stderr, unlinked := false, fed := fed }

/-- One pass of the `repeat` loop of `main` from the call of
`installStrictSyscallFilter` on, with assertions compiled in.  The result is
`none` when the pump has not left its loop after `fuel` passes. -/
def mainPass {σ κ : Type} (w : World σ κ) (cfg : Config) (fuel : Nat)
    (brotli_in : BrotliFdIn) (brotli_out : σ) : Option Run :=
  if cfg.enforce_jail && !w.jailed then
    some { ending := Ending.custom_exit ExitCode.JAIL_NOT_STARTED
           stderr := [], unlinked := false, fed := [] }
  else if cfg.decompress then
    let hdr : Ending ⊕ (BrotliFdIn × ParsedHeader) :=
      if cfg.prependHeader then
        match readHeader 24 brotli_in [] with
        | Sum.inl e => Sum.inl e
        | Sum.inr (fdin, header) => Sum.inr (fdin, parseHeader header cfg.doZlib0)
      else Sum.inr (brotli_in, { ok := true, outputSize := cfg.outputSize, zlib0 := cfg.doZlib0 })
    match hdr with
    | Sum.inl e => some { ending := e, stderr := [], unlinked := false, fed := [] }
    | Sum.inr (fdin, parsed) =>
      if parsed.zlib0 then
        let zwr := w.zwr_setFullFileSize parsed.outputSize brotli_out
        match Decompress w.codec w.zwr_Write fuel fdin zwr w.s0 w.output0 with
        | none => none
        | some (st, PumpEnd.exit_1 text) =>
          some { ending := Ending.exit 1, stderr := [text], unlinked := false, fed := st.fed }
        | some (st, PumpEnd.returned_true) =>
          if w.zwr_Sync st.fdout then some (finishPass w.jailed cfg.verbose w.memory [] st.fed)
          else some { ending := Ending.assert_failed, stderr := [], unlinked := false
                      fed := st.fed }
      else
        match Decompress w.codec w.out_Write fuel fdin brotli_out w.s0 w.output0 with
        | none => none
        | some (st, PumpEnd.exit_1 text) =>
          some { ending := Ending.exit 1, stderr := [text], unlinked := false, fed := st.fed }
        | some (st, PumpEnd.returned_true) =>
          some (finishPass w.jailed cfg.verbose w.memory [] st.fed)
  else
    let _header := if cfg.prependHeader then
      some (writeHeader w.revision cfg.outputSize w.out_Write brotli_out) else none
    match w.compress with
    | CompressEnd.failed =>
      some { ending := Ending.custom_exit ExitCode.ASSERTION_FAILURE
             stderr := ["compression failed\n"], unlinked := !w.jailed, fed := [] }
    | CompressEnd.bad_alloc =>
      some { ending := Ending.custom_exit ExitCode.OOM
             stderr := if !w.jailed then ["not enough memory\n"] else []
             unlinked := !w.jailed, fed := [] }
    | CompressEnd.ok => some (finishPass w.jailed cfg.verbose w.memory [] [])

/-- A world around `sinkAccepts` with the given jail result, compressor ending
and codec; the allocator reports 4096 bytes and the revision string is empty. -/
def worldOf (jailed : Bool) (compress : CompressEnd) (codec : Codec Unit) : World Unit Unit :=
  { jailed := jailed, memory := 4096, revision := [], compress := compress
    codec := codec, s0 := (), output0 := fun _ => 0
    out_Write := sinkAccepts, zwr_Write := sinkAccepts
    zwr_setFullFileSize := fun _ st => st, zwr_Sync := fun _ => true }

/-- The configuration of a run in decompress mode with `--header`. -/
def headerDecompress (verbose : Bool) : Config :=
  { decompress := true, prependHeader := true, doZlib0 := false, outputSize := 0
    verbose := verbose, enforce_jail := false }

/-- The configuration of a run in compress mode without `--header`. -/
def plainCompress (verbose : Bool) : Config :=
  { decompress := false, prependHeader := false, doZlib0 := false, outputSize := 0
    verbose := verbose, enforce_jail := true }

/-- The configuration of a run in decompress mode without `--header`. -/
def plainDecompress (verbose : Bool) : Config :=
  { decompress := true, prependHeader := false, doZlib0 := false, outputSize := 0
    verbose := verbose, enforce_jail := true }

/-! ## Theorems: container header -/

theorem parse_hex_le (v : Nat) : parse_hex v ≤ 15 := by
  unfold parse_hex
  split_ifs <;> omega

theorem cstr_ne_zero_iff (r : List Nat) (hr : ∀ c ∈ r, c ≠ 0) (k : Nat) :
    cstr r k ≠ 0 ↔ k < r.length := by
  unfold cstr
  constructor
  · intro h
    by_contra hk
    exact h (by simp [List.getD_eq_getElem?_getD, List.getElem?_eq_none (Nat.le_of_not_lt hk)])
  · intro hk
    have : r.getD k 0 = r[k] := by simp [List.getD_eq_getElem?_getD, List.getElem?_eq_getElem hk]
    rw [this]
    exact hr _ (List.getElem_mem hk)

theorem fingerprintLoop_length (r : List Nat) (fuel i : Nat) (hb : List Nat) :
    (fingerprintLoop r fuel i hb).length = hb.length := by
  induction fuel generalizing i hb with
  | zero => simp [fingerprintLoop]
  | succ fuel ih =>
    unfold fingerprintLoop
    split_ifs
    · rw [ih]; simp
    · rfl

theorem fingerprintLoop_getD (r : List Nat) (hr : ∀ c ∈ r, c ≠ 0) (fuel i : Nat)
    (hb : List Nat) (hlen : hb.length = 24) (hfuel : 17 ≤ i + fuel) (j : Nat) :
    (fingerprintLoop r fuel i hb).getD j 0 =
      if 4 + i ≤ j ∧ j < 20 ∧ 2 * (j - 4) + 1 < r.length then pairByte r (j - 4)
      else hb.getD j 0 := by
  induction fuel generalizing i hb with
  | zero =>
    have : ¬ (4 + i ≤ j ∧ j < 20 ∧ 2 * (j - 4) + 1 < r.length) := by omega
    simp [fingerprintLoop, this]
  | succ fuel ih =>
    rw [fingerprintLoop]
    have h0 := cstr_ne_zero_iff r hr (i * 2)
    have h1 := cstr_ne_zero_iff r hr (i * 2 + 1)
    by_cases hc : cstr r (i * 2) ≠ 0 ∧ cstr r (i * 2 + 1) ≠ 0 ∧ i < header_size - 4 - 4
    · rw [if_pos hc, ih (i + 1) _ (by simp [hlen]) (by omega)]
      have hi : i < 16 := by simp only [header_size] at hc; omega
      have hl : i * 2 + 1 < r.length := h1.mp hc.2.1
      by_cases hj2 : j = 4 + i
      · subst hj2
        have hne : ¬ (4 + (i + 1) ≤ 4 + i ∧ 4 + i < 20 ∧ 2 * (4 + i - 4) + 1 < r.length) := by
          omega
        have hyes : (4 + i ≤ 4 + i ∧ 4 + i < 20 ∧ 2 * (4 + i - 4) + 1 < r.length) := by
          omega
        rw [if_neg hne, if_pos hyes]
        have hmod : (16 * parse_hex (cstr r (i * 2)) + parse_hex (cstr r (i * 2 + 1))) % 256
            = pairByte r (4 + i - 4) := by
          have a := parse_hex_le (cstr r (i * 2))
          have b := parse_hex_le (cstr r (i * 2 + 1))
          have e : 4 + i - 4 = i := by omega
          rw [e]
          unfold pairByte
          rw [Nat.mul_comm 2 i]
          omega
        rw [← hmod]
        have h24 : 4 + i < 24 := by omega
        simp [List.getD_eq_getElem?_getD, List.getElem?_set, hlen, h24]
      · by_cases hc2 : 4 + (i + 1) ≤ j ∧ j < 20 ∧ 2 * (j - 4) + 1 < r.length
        · have : 4 + i ≤ j ∧ j < 20 ∧ 2 * (j - 4) + 1 < r.length := by omega
          rw [if_pos hc2, if_pos this]
        · have : ¬ (4 + i ≤ j ∧ j < 20 ∧ 2 * (j - 4) + 1 < r.length) := by omega
          rw [if_neg hc2, if_neg this]
          have hne2 : ¬ (4 + i = j) := fun h => hj2 h.symm
          simp [List.getD_eq_getElem?_getD, List.getElem?_set, hne2]
    · rw [if_neg hc]
      have hx : ¬ (i * 2 < r.length ∧ i * 2 + 1 < r.length ∧ i < 16) := by
        rw [← h0, ← h1]; exact hc
      have : ¬ (4 + i ≤ j ∧ j < 20 ∧ 2 * (j - 4) + 1 < r.length) := by omega
      rw [if_neg this]

theorem fingerprintLoop_getD_outside (r : List Nat) (fuel i : Nat) (hb : List Nat) (j : Nat)
    (hj : j < 4 + i ∨ 20 ≤ j) :
    (fingerprintLoop r fuel i hb).getD j 0 = hb.getD j 0 := by
  induction fuel generalizing i hb with
  | zero => simp [fingerprintLoop]
  | succ fuel ih =>
    rw [fingerprintLoop]
    by_cases hc : cstr r (i * 2) ≠ 0 ∧ cstr r (i * 2 + 1) ≠ 0 ∧ i < header_size - 4 - 4
    · rw [if_pos hc, ih (i + 1) _ (by omega)]
      have hi : i < 16 := by simp only [header_size] at hc; omega
      have hne : ¬ (4 + i = j) := by omega
      simp [List.getD_eq_getElem?_getD, List.getElem?_set, hne]
    · rw [if_neg hc]

theorem and_255 (x : Nat) : x &&& 255 = x % 256 := Nat.and_pow_two_sub_one_eq_mod x 8

theorem writeHeader_bytes_length (revision : List Nat) (size : Nat) :
    (writeHeader_bytes revision size).length = 24 := by
  simp [writeHeader_bytes, fingerprintLoop_length, header_template]

theorem writeHeader_bytes_magic (revision : List Nat) (size : Nat) :
    (writeHeader_bytes revision size).getD 0 0 = 98 ∧
    (writeHeader_bytes revision size).getD 1 0 = 114 ∧
    (writeHeader_bytes revision size).getD 2 0 = 0 ∧
    (writeHeader_bytes revision size).getD 3 0 = 116 := by
  refine ⟨?_, ?_, ?_, ?_⟩ <;>
  · simp only [writeHeader_bytes]
    rw [fingerprintLoop_getD_outside _ _ _ _ _ (by omega)]
    simp [header_template, header_size, List.getD_eq_getElem?_getD, List.getElem?_set]

theorem writeHeader_bytes_size (revision : List Nat) (size : Nat) :
    (writeHeader_bytes revision size).getD 20 0 = size % 256 ∧
    (writeHeader_bytes revision size).getD 21 0 = size / 2 ^ 8 % 256 ∧
    (writeHeader_bytes revision size).getD 22 0 = size / 2 ^ 16 % 256 ∧
    (writeHeader_bytes revision size).getD 23 0 = size / 2 ^ 32 % 256 := by
  refine ⟨?_, ?_, ?_, ?_⟩ <;>
  · simp only [writeHeader_bytes]
    rw [fingerprintLoop_getD_outside _ _ _ _ _ (by omega)]
    simp [header_template, header_size, List.getD_eq_getElem?_getD, List.getElem?_set,
      and_255, Nat.shiftRight_eq_div_pow]

theorem writeHeader_bytes_fingerprint (revision : List Nat) (hrev : ∀ c ∈ revision, c ≠ 0)
    (size i : Nat) (hi : i < 16) :
    (writeHeader_bytes revision size).getD (4 + i) 0 =
      if 2 * i + 1 < revision.length then pairByte revision i else 0 := by
  simp only [writeHeader_bytes]
  rw [fingerprintLoop_getD revision hrev 17 0 _ (by simp [header_template]) (by omega)]
  have e : 4 + i - 4 = i := by omega
  rw [e]
  by_cases h : 2 * i + 1 < revision.length
  · have : 4 + 0 ≤ 4 + i ∧ 4 + i < 20 ∧ 2 * i + 1 < revision.length := by omega
    rw [if_pos this, if_pos h]
  · have : ¬ (4 + 0 ≤ 4 + i ∧ 4 + i < 20 ∧ 2 * i + 1 < revision.length) := by omega
    rw [if_neg this, if_neg h]
    have h4 : ¬ (20 = 4 + i) := by omega
    have h5 : ¬ (21 = 4 + i) := by omega
    have h6 : ¬ (22 = 4 + i) := by omega
    have h7 : ¬ (23 = 4 + i) := by omega
    simp only [header_size, List.getD_eq_getElem?_getD, List.getElem?_set, h4, h5, h6, h7,
      if_false]
    have : header_template[4 + i]? = some 0 := by
      have : ∀ k, k < 16 → header_template[4 + k]? = some 0 := by decide
      exact this i hi
    simp [this]

/-- C3. For every size and every revision string (a C string: none of its
characters is NUL), `writeHeader` makes one call of the sink's `Write`, with one
block `header_bin`, and returns what that call returns.  The block has 24 bytes:
bytes 0..3 are `'b'`, `'r'`, `0`, `'t'`; byte `4 + i`, for `i < 16`, is
`16 * parse_hex(r[2i]) + parse_hex(r[2i+1])` when the revision string has the
complete pair `i` and `0` otherwise; bytes 20, 21, 22 are bits 0-7, 8-15 and
16-23 of the size and byte 23 is bits 32-39 of the size. -/
theorem writeHeader_layout (revision : List Nat) (hrev : ∀ c ∈ revision, c ≠ 0) (size : Nat) :
    ∃ header_bin : List Nat,
      (∀ (σ : Type) (output_Write : Sink σ) (st : σ),
        writeHeader revision size output_Write st = output_Write st header_bin) ∧
      header_bin.length = 24 ∧
      header_bin.take 4 = [98, 114, 0, 116] ∧
      (∀ i, i < 16 → header_bin.getD (4 + i) 0 =
        if 2 * i + 1 < revision.length then
          16 * parse_hex (revision.getD (2 * i) 0) + parse_hex (revision.getD (2 * i + 1) 0)
        else 0) ∧
      header_bin.getD 20 0 = size % 256 ∧
      header_bin.getD 21 0 = size / 2 ^ 8 % 256 ∧
      header_bin.getD 22 0 = size / 2 ^ 16 % 256 ∧
      header_bin.getD 23 0 = size / 2 ^ 32 % 256 := by
  refine ⟨writeHeader_bytes revision size, fun _ _ _ => rfl,
    writeHeader_bytes_length revision size, ?_, ?_, writeHeader_bytes_size revision size⟩
  · have hl := writeHeader_bytes_length revision size
    have hm := writeHeader_bytes_magic revision size
    generalize writeHeader_bytes revision size = hb at hl hm
    match hb, hl, hm with
    | [a, b, c, d, _, _, _, _, _, _, _, _, _, _, _, _, _, _, _, _, _, _, _, _], _, hm =>
      simp only [List.getD_cons_zero, List.getD_cons_succ] at hm
      obtain ⟨h0, h1, h2, h3⟩ := hm
      simp [h0, h1, h2, h3]
  · intro i hi
    exact writeHeader_bytes_fingerprint revision hrev size i hi

/-- Witness for C3: the revision string `"a1b"` and the size `2 ^ 32 + 5`. -/
theorem writeHeader_layout_witness :
    (∀ c ∈ [97, 49, 98], c ≠ 0) ∧
    ∃ header_bin : List Nat,
      (∀ (σ : Type) (output_Write : Sink σ) (st : σ),
        writeHeader [97, 49, 98] 4294967301 output_Write st = output_Write st header_bin) ∧
      header_bin.length = 24 ∧
      header_bin.take 4 = [98, 114, 0, 116] ∧
      (∀ i, i < 16 → header_bin.getD (4 + i) 0 =
        if 2 * i + 1 < [97, 49, 98].length then
          16 * parse_hex ([97, 49, 98].getD (2 * i) 0)
            + parse_hex ([97, 49, 98].getD (2 * i + 1) 0)
        else 0) ∧
      header_bin.getD 20 0 = 4294967301 % 256 ∧
      header_bin.getD 21 0 = 4294967301 / 2 ^ 8 % 256 ∧
      header_bin.getD 22 0 = 4294967301 / 2 ^ 16 % 256 ∧
      header_bin.getD 23 0 = 4294967301 / 2 ^ 32 % 256 :=
  ⟨by decide, writeHeader_layout [97, 49, 98] (by decide) 4294967301⟩

/-- C2. For every 24-byte array `d`, `parseHeader` returns true exactly when
`d[0] = 'b'`, `d[1] = 'r'`, `d[2] = 0` and `d[3]` is `'t'` or `'z'`, and returns
false in every other case. -/
theorem parseHeader_ok_iff (d : List Nat) (zlib0 : Bool) (_hlen : d.length = 24) :
    ((parseHeader d zlib0).ok = true ↔
      (d.getD 0 0 = 98 ∧ d.getD 1 0 = 114 ∧ d.getD 2 0 = 0
        ∧ (d.getD 3 0 = 116 ∨ d.getD 3 0 = 122))) ∧
    (¬ (d.getD 0 0 = 98 ∧ d.getD 1 0 = 114 ∧ d.getD 2 0 = 0
        ∧ (d.getD 3 0 = 116 ∨ d.getD 3 0 = 122)) → (parseHeader d zlib0).ok = false) := by
  have key : (parseHeader d zlib0).ok = true ↔
      (d.getD 0 0 = 98 ∧ d.getD 1 0 = 114 ∧ d.getD 2 0 = 0
        ∧ (d.getD 3 0 = 116 ∨ d.getD 3 0 = 122)) := by
    simp only [parseHeader, Bool.and_eq_true, Bool.or_eq_true, decide_eq_true_eq]
    tauto
  refine ⟨key, fun h => ?_⟩
  cases hok : (parseHeader d zlib0).ok
  · rfl
  · exact absurd (key.mp hok) h

/-- Witness for C2: a header with the tag `'z'` and one with a wrong tag. -/
theorem parseHeader_ok_iff_witness :
    (parseHeader ([98, 114, 0, 122] ++ List.replicate 20 7) false).ok = true ∧
    (parseHeader ([98, 114, 0, 121] ++ List.replicate 20 7) false).ok = false :=
  ⟨((parseHeader_ok_iff ([98, 114, 0, 122] ++ List.replicate 20 7) false (by decide)).1).mpr
      (by decide),
   (parseHeader_ok_iff ([98, 114, 0, 121] ++ List.replicate 20 7) false (by decide)).2
      (by decide)⟩

/-- C1 (the code at the failing input). For every revision string, the header
that `writeHeader` passes to the sink for the size `2 ^ 24` is parsed by
`parseHeader` with result true and recovered size `0`, not `2 ^ 24`. -/
theorem header_round_trip_loses_bits_24_to_31 (revision : List Nat) :
    (writeHeader revision 16777216 recordingSink []).2.map
        (fun header => parseHeader header false)
      = [{ ok := true, outputSize := 0, zlib0 := false }] := by
  have hm := writeHeader_bytes_magic revision 16777216
  have hs := writeHeader_bytes_size revision 16777216
  obtain ⟨m0, m1, m2, m3⟩ := hm
  obtain ⟨s0, s1, s2, s3⟩ := hs
  simp only [writeHeader, recordingSink, parseHeader, header_size, m0, m1, m2, m3, s0, s1, s2,
    s3, List.nil_append, List.map_cons, List.map_nil]
  decide

/-- For every size below `2 ^ 24` and every revision string, `parseHeader`
accepts the header `writeHeader` passes to the sink and recovers the size. -/
theorem header_round_trip_below_2_pow_24 (revision : List Nat) (size : Nat)
    (hsize : size < 2 ^ 24) :
    (writeHeader revision size recordingSink []).2.map
        (fun header => parseHeader header false)
      = [{ ok := true, outputSize := size, zlib0 := false }] := by
  have hm := writeHeader_bytes_magic revision size
  have hs := writeHeader_bytes_size revision size
  obtain ⟨m0, m1, m2, m3⟩ := hm
  obtain ⟨s0, s1, s2, s3⟩ := hs
  simp only [writeHeader, recordingSink, parseHeader, header_size, m0, m1, m2, m3, s0, s1, s2,
    s3, List.nil_append, List.map_cons, List.map_nil]
  have h3 : size / 2 ^ 32 % 256 = 0 := by omega
  rw [h3]
  simp
  omega

/-- Witness for the round trip below `2 ^ 24`. -/
theorem header_round_trip_below_2_pow_24_witness :
    (writeHeader [97, 49] 70000 recordingSink []).2.map
        (fun header => parseHeader header false)
      = [{ ok := true, outputSize := 70000, zlib0 := false }] :=
  header_round_trip_below_2_pow_24 [97, 49] 70000 (by decide)

/-! ## Theorems: `BrotliFdOut::Write` -/

theorem to_size_t_sub (n m : Nat) (h : m ≤ n) (hn : n < 2 ^ 64) :
    to_size_t ((n : Int) - (m : Int)) = n - m := by
  unfold to_size_t
  have h1 : ((n : Int) - (m : Int)) = ((n - m : Nat) : Int) := by omega
  rw [h1]
  have h2 : (((n - m : Nat) : Int) % (2 : Int) ^ 64) = ((n - m : Nat) : Int) := by
    apply Int.emod_eq_of_lt <;> omega
  rw [h2]
  simp

theorem Write_loop_zero (fd : List WriteResp) (to_write sent : List Nat) :
    Write_loop fd to_write 0 sent = some { ok := true, delivered := sent } := by
  cases fd <;> simp [Write_loop]

theorem Write_loop_interrupted (rest : List WriteResp) (to_write sent : List Nat) (n : Nat) :
    Write_loop (WriteResp.interrupted :: rest) to_write n sent
      = Write_loop rest to_write n sent := by
  by_cases hn : n > 0
  · simp [Write_loop, hn, sys_write_ret, sys_write_eintr]
  · have : n = 0 := by omega
    subst this
    rw [Write_loop_zero, Write_loop_zero]

theorem Write_loop_fatal (rest : List WriteResp) (to_write sent : List Nat) (n : Nat)
    (hn : 0 < n) :
    Write_loop (WriteResp.fatal :: rest) to_write n sent
      = some { ok := false, delivered := sent } := by
  simp [Write_loop, hn, sys_write_ret, sys_write_eintr]

theorem Write_loop_returned_zero (rest : List WriteResp) (to_write sent : List Nat) (n : Nat)
    (hn : 0 < n) :
    Write_loop (WriteResp.zero :: rest) to_write n sent
      = some { ok := false, delivered := sent } := by
  simp [Write_loop, hn, sys_write_ret]

theorem Write_loop_accepted_zero (rest : List WriteResp) (to_write sent : List Nat) (n : Nat)
    (hn : 0 < n) :
    Write_loop (WriteResp.accepted 0 :: rest) to_write n sent
      = some { ok := false, delivered := sent } := by
  simp [Write_loop, hn, sys_write_ret]

theorem Write_loop_accepted (rest : List WriteResp) (to_write sent : List Nat) (n k : Nat)
    (hn : 0 < n) (hk : 0 < k) (hsz : n < 2 ^ 64) :
    Write_loop (WriteResp.accepted k :: rest) to_write n sent
      = Write_loop rest (to_write.drop (min k n)) (n - min k n)
          (sent ++ to_write.take (min k n)) := by
  have hm : 0 < min k n := by omega
  have h1 : ¬ (((min k n : Nat) : Int) < 0) := by omega
  have h2 : ¬ (((min k n : Nat) : Int) = 0) := by omega
  rw [Write_loop]
  simp only [sys_write_ret, gt_iff_lt, hn, if_true, h1, h2, if_false, Int.toNat_ofNat]
  rw [to_size_t_sub n (min k n) (by omega) hsz]

theorem Write_loop_result (fd : List WriteResp) (to_write sent : List Nat)
    (hsz : to_write.length < 2 ^ 64) (res : WriteResult)
    (h : Write_loop fd to_write to_write.length sent = some res) :
    ∃ k, k ≤ to_write.length ∧ res.delivered = sent ++ to_write.take k
      ∧ (res.ok = true ↔ k = to_write.length) := by
  induction fd generalizing to_write sent with
  | nil =>
    by_cases hn : to_write.length > 0
    · simp [Write_loop, hn] at h
    · have h0 : to_write.length = 0 := by omega
      rw [h0, Write_loop_zero] at h
      cases h
      exact ⟨0, by omega, by simp, by simp [h0]⟩
  | cons r rest ih =>
    by_cases hn : to_write.length > 0
    · cases r with
      | interrupted =>
        rw [Write_loop_interrupted] at h
        exact ih to_write sent hsz h
      | fatal =>
        rw [Write_loop_fatal _ _ _ _ hn] at h
        cases h
        exact ⟨0, by omega, by simp, by simp; omega⟩
      | zero =>
        rw [Write_loop_returned_zero _ _ _ _ hn] at h
        cases h
        exact ⟨0, by omega, by simp, by simp; omega⟩
      | accepted k =>
        by_cases hk : 0 < k
        · rw [Write_loop_accepted _ _ _ _ _ hn hk hsz] at h
          have hlen : (to_write.drop (min k to_write.length)).length
              = to_write.length - min k to_write.length := by simp
          rw [← hlen] at h
          obtain ⟨j, hj, hd, hok⟩ := ih _ _ (by rw [hlen]; omega) h
          refine ⟨min k to_write.length + j, by rw [hlen] at hj; omega, ?_, ?_⟩
          · rw [hd, List.append_assoc, List.take_add]
          · rw [hok, hlen]; omega
        · have hk0 : k = 0 := by omega
          subst hk0
          rw [Write_loop_accepted_zero _ _ _ _ hn] at h
          cases h
          exact ⟨0, by omega, by simp, by simp; omega⟩
    · have h0 : to_write.length = 0 := by omega
      rw [h0, Write_loop_zero] at h
      cases h
      exact ⟨0, by omega, by simp, by simp [h0]⟩

theorem Write_loop_filter (fd : List WriteResp) (to_write sent : List Nat) (n : Nat) :
    Write_loop fd to_write n sent
      = Write_loop (fd.filter WriteResp.notInterrupted) to_write n sent := by
  induction fd generalizing to_write sent n with
  | nil => rfl
  | cons r rest ih =>
    cases r with
    | interrupted =>
      rw [Write_loop_interrupted]
      simpa [WriteResp.notInterrupted] using ih to_write sent n
    | fatal =>
      by_cases hn : 0 < n
      · simp [WriteResp.notInterrupted, Write_loop_fatal _ _ _ _ hn]
      · have : n = 0 := by omega
        subst this
        rw [Write_loop_zero, Write_loop_zero]
    | zero =>
      by_cases hn : 0 < n
      · simp [WriteResp.notInterrupted, Write_loop_returned_zero _ _ _ _ hn]
      · have : n = 0 := by omega
        subst this
        rw [Write_loop_zero, Write_loop_zero]
    | accepted k =>
      by_cases hn : 0 < n
      · have hf : (WriteResp.accepted k :: rest).filter WriteResp.notInterrupted
            = WriteResp.accepted k :: rest.filter WriteResp.notInterrupted := by
          simp [WriteResp.notInterrupted]
        rw [hf, Write_loop, Write_loop]
        simp only [gt_iff_lt, hn, if_true]
        split_ifs
        · exact ih _ _ _
        · rfl
        · rfl
        · exact ih _ _ _
      · have : n = 0 := by omega
        subst this
        rw [Write_loop_zero, Write_loop_zero]

theorem Write_loop_returns (fd : List WriteResp) (to_write sent : List Nat)
    (hsz : to_write.length < 2 ^ 64)
    (h : to_write.length ≤ (fd.filter WriteResp.notInterrupted).length) :
    (Write_loop fd to_write to_write.length sent).isSome = true := by
  induction fd generalizing to_write sent with
  | nil =>
    have h0 : to_write.length = 0 := by simpa using h
    rw [h0, Write_loop_zero]; rfl
  | cons r rest ih =>
    by_cases hn : to_write.length > 0
    · cases r with
      | interrupted =>
        rw [Write_loop_interrupted]
        exact ih to_write sent hsz (by simpa [WriteResp.notInterrupted] using h)
      | fatal => rw [Write_loop_fatal _ _ _ _ hn]; rfl
      | zero => rw [Write_loop_returned_zero _ _ _ _ hn]; rfl
      | accepted k =>
        by_cases hk : 0 < k
        · rw [Write_loop_accepted _ _ _ _ _ hn hk hsz]
          have hlen : (to_write.drop (min k to_write.length)).length
              = to_write.length - min k to_write.length := by simp
          rw [← hlen]
          have h' : to_write.length ≤ (rest.filter WriteResp.notInterrupted).length + 1 := by
            simpa [WriteResp.notInterrupted] using h
          exact ih _ _ (by rw [hlen]; omega) (by rw [hlen]; omega)
        · have hk0 : k = 0 := by omega
          subst hk0
          rw [Write_loop_accepted_zero _ _ _ _ hn]; rfl
    · have h0 : to_write.length = 0 := by omega
      rw [h0, Write_loop_zero]; rfl

theorem Write_loop_stops (pre : List WriteResp) (r : WriteResp) (post : List WriteResp)
    (to_write sent : List Nat) (hsz : to_write.length < 2 ^ 64)
    (hpre : ∀ x ∈ pre, x.progresses = true) (htot : acceptedTotal pre < to_write.length)
    (hr : r.stops = true) :
    Write_loop (pre ++ r :: post) to_write to_write.length sent
      = some { ok := false, delivered := sent ++ to_write.take (acceptedTotal pre) } := by
  induction pre generalizing to_write sent with
  | nil =>
    have hn : 0 < to_write.length := by simpa [acceptedTotal] using htot
    cases r with
    | interrupted => simp [WriteResp.stops] at hr
    | fatal => simp [Write_loop_fatal _ _ _ _ hn, acceptedTotal]
    | zero => simp [Write_loop_returned_zero _ _ _ _ hn, acceptedTotal]
    | accepted k =>
      have hk0 : k = 0 := by simpa [WriteResp.stops] using hr
      subst hk0
      simp [Write_loop_accepted_zero _ _ _ _ hn, acceptedTotal]
  | cons x pre ih =>
    have hx := hpre x (List.mem_cons_self _ _)
    have hpre' : ∀ y ∈ pre, y.progresses = true := fun y hy => hpre y (List.mem_cons_of_mem _ hy)
    cases x with
    | interrupted =>
      rw [List.cons_append, Write_loop_interrupted]
      simpa [acceptedTotal] using ih to_write sent hsz hpre' (by simpa [acceptedTotal] using htot)
    | fatal => simp [WriteResp.progresses] at hx
    | zero => simp [WriteResp.progresses] at hx
    | accepted k =>
      have hk : 0 < k := by simpa [WriteResp.progresses] using hx
      have htot' : k + acceptedTotal pre < to_write.length := by
        simpa [acceptedTotal] using htot
      have hmin : min k to_write.length = k := by omega
      rw [List.cons_append, Write_loop_accepted _ _ _ _ _ (by omega) hk hsz, hmin]
      have hlen : (to_write.drop k).length = to_write.length - k := by simp
      rw [← hlen, ih _ _ (by rw [hlen]; omega) hpre' (by rw [hlen]; omega)]
      simp [acceptedTotal, List.append_assoc, List.take_add]

/-- C6. `BrotliFdOut::Write(buf, n)` with `n` the length of `buf`, against any
sequence of answers of `write`: (a) when it returns, the bytes the channel took
are a prefix of `buf`, and it returns true exactly when that prefix is all of
`buf`; (b) after answers that each took at least one byte or were
interruptions, and that together took fewer than `n` bytes, a fatal error or a
write of zero bytes makes it return false at once, with exactly those bytes
taken; (c) two sequences of answers that differ only in interruptions give the
same return value and the same bytes; (d) it returns as soon as the sequence
holds `n` answers that are not interruptions. -/
theorem BrotliFdOut_Write_contract (buf : List Nat) (hsz : buf.length < 2 ^ 64) :
    (∀ fd res, BrotliFdOut.Write fd buf buf.length = some res →
      res.delivered <+: buf ∧ (res.ok = true ↔ res.delivered = buf)) ∧
    (∀ pre r post, (∀ x ∈ pre, x.progresses = true) → acceptedTotal pre < buf.length →
      r.stops = true →
      BrotliFdOut.Write (pre ++ r :: post) buf buf.length
        = some { ok := false, delivered := buf.take (acceptedTotal pre) }) ∧
    (∀ fd fd', fd.filter WriteResp.notInterrupted = fd'.filter WriteResp.notInterrupted →
      BrotliFdOut.Write fd buf buf.length = BrotliFdOut.Write fd' buf buf.length) ∧
    (∀ fd, buf.length ≤ (fd.filter WriteResp.notInterrupted).length →
      (BrotliFdOut.Write fd buf buf.length).isSome = true) := by
  refine ⟨?_, ?_, ?_, ?_⟩
  · intro fd res h
    obtain ⟨k, hk, hd, hok⟩ := Write_loop_result fd buf [] hsz res h
    rw [List.nil_append] at hd
    refine ⟨by rw [hd]; exact List.take_prefix k buf, ?_⟩
    rw [hok, hd]
    constructor
    · intro e; rw [e, List.take_length]
    · intro e
      have := congrArg List.length e
      rw [List.length_take] at this
      omega
  · intro pre r post hpre htot hr
    simpa [BrotliFdOut.Write] using Write_loop_stops pre r post buf [] hsz hpre htot hr
  · intro fd fd' h
    unfold BrotliFdOut.Write
    rw [Write_loop_filter fd, Write_loop_filter fd', h]
  · intro fd h
    exact Write_loop_returns fd buf [] hsz h

/-- Witness for C6: five bytes written against answers that accept two bytes,
are interrupted, accept three bytes; and against answers that accept two bytes
and then fail. -/
theorem BrotliFdOut_Write_contract_witness :
    BrotliFdOut.Write [WriteResp.accepted 2, WriteResp.interrupted, WriteResp.accepted 9]
        [10, 11, 12, 13, 14] 5
      = BrotliFdOut.Write [WriteResp.accepted 2, WriteResp.accepted 9] [10, 11, 12, 13, 14] 5 ∧
    BrotliFdOut.Write [WriteResp.accepted 2, WriteResp.fatal] [10, 11, 12, 13, 14] 5
      = some { ok := false, delivered := [10, 11] } :=
  ⟨(BrotliFdOut_Write_contract [10, 11, 12, 13, 14] (by decide)).2.2.1 _ _ (by decide),
   (BrotliFdOut_Write_contract [10, 11, 12, 13, 14] (by decide)).2.1
      [WriteResp.accepted 2] WriteResp.fatal [] (by decide) (by decide) (by decide)⟩

/-! ## Theorems: `BrotliFdIn::Read` -/

/-- C9 (the code at the failing input). `Read(24, &bytes_read)` on a descriptor
whose `read` fails with an error other than an interruption (also after an
interrupted attempt): the call returns the buffer, not `NULL`, reports
`2 ^ 64 - 1` bytes read and leaves the end-of-file flag unset. -/
theorem Read_reports_error_as_data :
    ((sourceOf [ReadResp.interrupted, ReadResp.error]).Read 24 0).nonNull = true ∧
    ((sourceOf [ReadResp.interrupted, ReadResp.error]).Read 24 0).bytes_read = 2 ^ 64 - 1 ∧
    ((sourceOf [ReadResp.interrupted, ReadResp.error]).Read 24 0).self.eof_ = false ∧
    ¬ (((sourceOf [ReadResp.interrupted, ReadResp.error]).Read 24 0).bytes_read
        ≤ min 24 65536) := by
  simp only [sourceOf, BrotliFdIn.Read, read_retry, to_size_t, kFileBufferSize]
  decide

theorem read_retry_range (fd : List ReadResp) (buf : Nat → Nat) (k : Nat) :
    (read_retry fd buf k).1 = -1 ∨ (0 ≤ (read_retry fd buf k).1 ∧ (read_retry fd buf k).1 ≤ k) := by
  induction fd with
  | nil => right; simp [read_retry]
  | cons r rest ih =>
    cases r with
    | interrupted => simpa [read_retry] using ih
    | error => left; simp [read_retry]
    | data chunk =>
      right
      simp only [read_retry, List.length_take]
      omega

theorem to_size_t_ofNat (m : Nat) (hm : m < 2 ^ 64) : to_size_t (m : Int) = m := by
  have := to_size_t_sub m 0 (Nat.zero_le _) hm
  simpa using this

/-- When the retry loop of `Read` does not end with a read error, a call with
`n > 0` reports at most `min(n, 65536)` bytes, returns `NULL` exactly when it
reports zero bytes, sets the end-of-file flag when it reports zero bytes and
leaves the flag as it was otherwise. -/
theorem Read_without_error (self : BrotliFdIn) (n b : Nat) (hn : 0 < n)
    (hok : (read_retry self.fd_ self.buf_ (min n kFileBufferSize)).1 ≠ -1) :
    (self.Read n b).bytes_read ≤ min n kFileBufferSize ∧
    ((self.Read n b).nonNull = false ↔ (self.Read n b).bytes_read = 0) ∧
    ((self.Read n b).bytes_read = 0 → (self.Read n b).self.eof_ = true) ∧
    ((self.Read n b).bytes_read ≠ 0 → (self.Read n b).self.eof_ = self.eof_) := by
  have hclamp : (if n > kFileBufferSize then kFileBufferSize else n) = min n kFileBufferSize := by
    split_ifs <;> omega
  have hr := read_retry_range self.fd_ self.buf_ (min n kFileBufferSize)
  rcases hr with h | ⟨h0, h1⟩
  · exact absurd h hok
  · obtain ⟨m, hm⟩ := Int.eq_ofNat_of_zero_le h0
    have hmle : m ≤ min n kFileBufferSize := by rw [hm] at h1; exact_mod_cast h1
    have hk : kFileBufferSize = 65536 := rfl
    have hsz : to_size_t (read_retry self.fd_ self.buf_ (min n kFileBufferSize)).1 = m := by
      rw [hm]; exact to_size_t_ofNat m (by omega)
    have hn0 : ¬ (n = 0) := by omega
    unfold BrotliFdIn.Read
    rw [if_neg hn0]
    simp only [hclamp, hsz]
    by_cases hm0 : m = 0
    · simp [hm0]
    · simp [hm0]
      omega

/-- Witness for `Read_without_error`: a read of up to 24 bytes from a descriptor
that is interrupted once and then has 30 bytes ready. -/
theorem Read_without_error_witness :
    ((sourceOf [ReadResp.interrupted, ReadResp.data (List.replicate 30 5)]).Read 24 0).bytes_read
      ≤ min 24 kFileBufferSize :=
  (Read_without_error (sourceOf [ReadResp.interrupted, ReadResp.data (List.replicate 30 5)])
    24 0 (by decide) (by decide)).1

/-! ## Theorems: `print_memory_stats` -/

theorem digitChar_eq (d : Nat) (hd : d < 10) :
    Nat.digitChar d = Char.ofNat (('0'.toNat + d) % 256) := by
  interval_cases d <;> rfl

theorem digitLoop_spec (passes memory cursor : Nat) (pre ds : List Char)
    (hpre : pre.length = cursor) (hpass : passes ≤ cursor) (hmem : memory < 10 ^ passes) :
    ∃ c : Nat, cursor - passes ≤ c ∧ c ≤ cursor ∧ (0 < passes → c < cursor) ∧
      digitLoop passes memory (cursor : Int) (pre ++ ds)
        = ((c : Int), pre.take c ++ Nat.toDigitsCore 10 passes memory ds) := by
  induction passes generalizing memory cursor pre ds with
  | zero =>
    refine ⟨cursor, by omega, by omega, by omega, ?_⟩
    simp [digitLoop, Nat.toDigitsCore, ← hpre]
  | succ p ih =>
    have hc : 1 ≤ cursor := by omega
    have hcast : ((cursor : Int) - 1) = ((cursor - 1 : Nat) : Int) := by omega
    have hset : (pre ++ ds).set (cursor - 1) (Char.ofNat (('0'.toNat + memory % 10) % 256))
        = pre.take (cursor - 1) ++ (Nat.digitChar (memory % 10) :: ds) := by
      rw [digitChar_eq _ (Nat.mod_lt _ (by decide))]
      rw [List.set_eq_take_append_cons_drop]
      have h1 : cursor - 1 < (pre ++ ds).length := by simp; omega
      rw [if_pos h1, List.take_append_of_le_length (by omega)]
      congr 2
      have h2 : cursor - 1 + 1 = cursor := by omega
      rw [h2, List.drop_left' hpre]
    rw [digitLoop]
    simp only [hcast, Int.toNat_ofNat, hset]
    by_cases h0 : memory / 10 = 0
    · refine ⟨cursor - 1, by omega, by omega, by omega, ?_⟩
      simp [h0, Nat.toDigitsCore]
    · have hmem' : memory / 10 < 10 ^ p := by
        rw [Nat.div_lt_iff_lt_mul (by decide)]
        rw [pow_succ] at hmem
        exact hmem
      have hp : 0 < p := by
        rcases Nat.eq_zero_or_pos p with h | h
        · subst h; simp at hmem'; exact absurd hmem' h0
        · exact h
      obtain ⟨c, hc1, hc2, hc3, hres⟩ :=
        ih (memory / 10) (cursor - 1) (pre.take (cursor - 1)) (Nat.digitChar (memory % 10) :: ds)
          (by simp; omega) (by omega) hmem'
      refine ⟨c, by omega, by omega, by omega, ?_⟩
      rw [if_neg h0, hres, List.take_take]
      have : min c (cursor - 1) = c := by omega
      rw [this]
      simp [Nat.toDigitsCore, h0]

theorem toDigitsCore_append (fuel n : Nat) (ds : List Char) :
    Nat.toDigitsCore 10 fuel n ds = Nat.toDigitsCore 10 fuel n [] ++ ds := by
  induction fuel generalizing n ds with
  | zero => simp [Nat.toDigitsCore]
  | succ f ih =>
    simp only [Nat.toDigitsCore]
    split_ifs
    · simp
    · rw [ih, ih (n / 10) [Nat.digitChar (n % 10)]]
      simp

theorem toDigitsCore_fuel (f g n : Nat) (hf : n < 10 ^ f) (hg : n < 10 ^ g) (ds : List Char)
    (hpos : 0 < f ∧ 0 < g) :
    Nat.toDigitsCore 10 f n ds = Nat.toDigitsCore 10 g n ds := by
  induction f generalizing g n ds with
  | zero => omega
  | succ f ih =>
    obtain ⟨g, rfl⟩ : ∃ g', g = g' + 1 := ⟨g - 1, by omega⟩
    simp only [Nat.toDigitsCore]
    by_cases h0 : n / 10 = 0
    · simp [h0]
    · rw [if_neg h0, if_neg h0]
      have h1 : n / 10 < 10 ^ f := by
        rw [Nat.div_lt_iff_lt_mul (by decide)]; rw [pow_succ] at hf; exact hf
      have h2 : n / 10 < 10 ^ g := by
        rw [Nat.div_lt_iff_lt_mul (by decide)]; rw [pow_succ] at hg; exact hg
      have hf0 : 0 < f := by
        rcases Nat.eq_zero_or_pos f with h | h
        · subst h; simp at h1; exact absurd h1 h0
        · exact h
      have hg0 : 0 < g := by
        rcases Nat.eq_zero_or_pos g with h | h
        · subst h; simp at h2; exact absurd h2 h0
        · exact h
      exact ih g (n / 10) h1 h2 _ ⟨hf0, hg0⟩

theorem digitChar_ne_nul (d : Nat) (hd : d < 10) : Nat.digitChar d ≠ Char.ofNat 0 := by
  interval_cases d <;> decide

theorem toDigitsCore_ne_nul (fuel n : Nat) (ds : List Char)
    (hds : ∀ c ∈ ds, c ≠ Char.ofNat 0) :
    ∀ c ∈ Nat.toDigitsCore 10 fuel n ds, c ≠ Char.ofNat 0 := by
  induction fuel generalizing n ds with
  | zero => simpa [Nat.toDigitsCore] using hds
  | succ f ih =>
    have hcons : ∀ c ∈ Nat.digitChar (n % 10) :: ds, c ≠ Char.ofNat 0 := by
      intro c hc
      rcases List.mem_cons.mp hc with h | h
      · rw [h]; exact digitChar_ne_nul _ (Nat.mod_lt _ (by decide))
      · exact hds c h
    simp only [Nat.toDigitsCore]
    split_ifs
    · exact hcons
    · exact ih _ _ hcons

theorem stats_template_split :
    stats_template
      = List.replicate 18 'X' ++ (" bytes allocated\n".toList ++ [Char.ofNat 0]) := by
  decide

theorem print_memory_stats_spec (memory : Nat) (hmem : memory < 10 ^ 17) :
    ∃ c : Nat, 1 ≤ c ∧ c < 18 ∧
      print_memory_stats memory
        = ((c : Int), Nat.repr memory ++ " bytes allocated\n") := by
  obtain ⟨c, hc1, hc2, hc3, hres⟩ :=
    digitLoop_spec 17 memory 18 (List.replicate 18 'X')
      (" bytes allocated\n".toList ++ [Char.ofNat 0]) (by simp) (by omega) hmem
  refine ⟨c, by omega, hc3 (by omega), ?_⟩
  have hloop : digitLoop 17 memory 18 stats_template
      = ((c : Int), (List.replicate 18 'X').take c
          ++ Nat.toDigitsCore 10 17 memory (" bytes allocated\n".toList ++ [Char.ofNat 0])) := by
    rw [stats_template_split]; exact hres
  unfold print_memory_stats
  simp only [hloop]
  congr 1
  unfold c_str_from
  rw [Int.toNat_ofNat, List.drop_left' (by simp; omega), toDigitsCore_append,
    ← List.append_assoc]
  have hfuel : Nat.toDigitsCore 10 17 memory [] = Nat.toDigits 10 memory := by
    unfold Nat.toDigits
    have h10 : (1 : Nat) < 10 := by decide
    exact toDigitsCore_fuel 17 (memory + 1) memory hmem
      (Nat.lt_trans (Nat.lt_succ_self memory) (Nat.lt_pow_self h10 (memory + 1))) []
      ⟨by omega, by omega⟩
  have hall : ∀ a ∈ Nat.toDigitsCore 10 17 memory [] ++ " bytes allocated\n".toList,
      (fun ch => decide (ch ≠ Char.ofNat 0)) a = true := by
    intro a ha
    rcases List.mem_append.mp ha with h | h
    · simpa using toDigitsCore_ne_nul 17 memory [] (by simp) a h
    · have hsuffix : ∀ b ∈ " bytes allocated\n".toList,
          (fun ch => decide (ch ≠ Char.ofNat 0)) b = true := by decide
      exact hsuffix a h
  rw [List.takeWhile_append_of_pos hall, hfuel]
  have hnul : List.takeWhile (fun ch => decide (ch ≠ Char.ofNat 0)) [Char.ofNat 0] = [] := by
    decide
  rw [hnul, List.append_nil]
  rfl

/-- C10. For every allocator count `m < 10 ^ 17`, the text `print_memory_stats`
hands to the error stream is the decimal representation of `m` (no leading
zeros, `"0"` for zero) followed by `" bytes allocated\n"`, and the digit cursor
stops at an offset between 1 and 17 of the 18-character digit field, so it
never moves before the start of the field. -/
theorem print_memory_stats_decimal (m : Nat) (hm : m < 10 ^ 17) :
    (print_memory_stats m).2 = Nat.repr m ++ " bytes allocated\n" ∧
    1 ≤ (print_memory_stats m).1 ∧ (print_memory_stats m).1 < 18 := by
  obtain ⟨c, h1, h2, h⟩ := print_memory_stats_spec m hm
  rw [h]
  exact ⟨rfl, by simp; omega, by simp; omega⟩

/-- Witness for C10: the counts `0` and `1234567`. -/
theorem print_memory_stats_decimal_witness :
    (print_memory_stats 0).2 = "0 bytes allocated\n" ∧
    (print_memory_stats 1234567).2 = "1234567 bytes allocated\n" ∧
    1 ≤ (print_memory_stats 1234567).1 :=
  ⟨(print_memory_stats_decimal 0 (by decide)).1,
   (print_memory_stats_decimal 1234567 (by decide)).1,
   (print_memory_stats_decimal 1234567 (by decide)).2.1⟩

/-! ## Theorems: the streaming pump -/

/-- C4 (the code at the failing input). The source holds one chunk, the codec
stores one byte and signals success at its first call, and the sink fails every
write: the loop is left, the drain passes the byte to the sink, the sink
returns false, and `Decompress` returns true all the same. -/
theorem Decompress_ignores_failed_drain :
    (Decompress codecOneByte sinkFails 2 (sourceOf [ReadResp.data [1]]) () () (fun _ => 0)).map
        (fun r => (r.2, r.1.blocks, r.1.result))
      = some (PumpEnd.returned_true, [([7], false)], BROTLI_RESULT_SUCCESS) := by
  decide

theorem bufRead_length (mem : Nat → Nat) (len : Nat) : (bufRead mem len).length = len := by
  simp [bufRead]

theorem bufRead_zero (mem : Nat → Nat) : bufRead mem 0 = [] := by
  simp [bufRead]

theorem bufRead_writeAt (mem : Nat → Nat) (off : Nat) (bytes : List Nat) :
    bufRead (writeAt mem off bytes) (off + bytes.length) = bufRead mem off ++ bytes := by
  unfold bufRead
  rw [List.range_add, List.map_append, List.map_map]
  congr 1
  · apply List.map_congr_left
    intro i hi
    have : i < off := List.mem_range.mp hi
    have hn : ¬ (off ≤ i ∧ i < off + bytes.length) := by omega
    simp [writeAt, hn]
  · apply List.ext_getElem
    · simp
    · intro i h1 h2
      have hi : i < bytes.length := h2
      simp [writeAt, hi, List.getD_eq_getElem?_getD, List.getElem?_eq_getElem hi]

theorem callCodec_inv {σ κ : Type} (codec : Codec κ) (hfull : FillsBeforeNeedsOutput codec)
    (st : PumpState σ κ) (h1 : st.next_out + st.available_out = kFileBufferSize)
    (h3 : st.allWritesOk → st.written ++ bufRead st.output st.next_out = st.produced) :
    PumpInv (callCodec codec st) := by
  have hlen : ∀ l : List Nat, (l.take st.available_out).length ≤ st.available_out := by
    intro l; simp
  refine ⟨?_, ?_, ?_⟩
  · simp only [callCodec]
    have := hlen (codec st.s st.available_in (fun i => st.fdin.buf_ (st.next_in + i))
      st.available_out).produced
    omega
  · intro hres
    simp only [callCodec] at hres ⊢
    have := hfull _ _ _ _ hres
    rw [List.length_take]
    omega
  · intro hok
    have hok' : st.allWritesOk := hok
    have := h3 hok'
    simp only [callCodec, PumpState.written] at this ⊢
    rw [bufRead_writeAt, ← List.append_assoc, this]

theorem loopBody_inv {σ κ : Type} (codec : Codec κ) (hfull : FillsBeforeNeedsOutput codec)
    (Write : Sink σ) (st : PumpState σ κ) (hinv : PumpInv st) :
    PumpInv (loopBody codec Write st).1 := by
  obtain ⟨h1, h2, h3⟩ := hinv
  unfold loopBody
  by_cases hin : st.result = BROTLI_RESULT_NEEDS_MORE_INPUT
  · rw [if_pos hin]
    by_cases heof : st.fdin.is_eof = true
    · rw [if_pos heof]; exact ⟨h1, h2, h3⟩
    · rw [if_neg heof]
      simp only
      split_ifs
      · refine ⟨h1, ?_, h3⟩
        intro hres
        simp only [hin] at hres
        cases hres
      · exact callCodec_inv codec hfull _ h1 h3
  · rw [if_neg hin]
    by_cases hout : st.result = BROTLI_RESULT_NEEDS_MORE_OUTPUT
    · rw [if_pos hout]
      have hav := h2 hout
      have hno : st.next_out = kFileBufferSize := by omega
      simp only
      split_ifs with hw
      · refine ⟨h1, fun _ => hav, ?_⟩
        intro hok
        exfalso
        have hmem := hok (bufRead st.output kFileBufferSize,
          (Write st.fdout (bufRead st.output kFileBufferSize)).1) (by simp)
        simp only at hmem
        rw [hmem] at hw
        simp at hw
      · apply callCodec_inv codec hfull
        · simp
        · intro hok
          have hprev : st.allWritesOk := by
            intro b hb
            exact hok b (by simp only [List.mem_append]; exact Or.inl hb)
          have := h3 hprev
          rw [hno] at this
          simp only [PumpState.written, List.map_append, List.flatten_append, List.map_cons,
            List.map_nil, List.flatten_cons, List.flatten_nil, List.append_nil, bufRead_zero]
          simpa [PumpState.written] using this
    · rw [if_neg hout]; exact ⟨h1, h2, h3⟩

theorem runLoop_inv {σ κ : Type} (codec : Codec κ) (hfull : FillsBeforeNeedsOutput codec)
    (Write : Sink σ) (fuel : Nat) (st : PumpState σ κ) (hinv : PumpInv st) :
    PumpInv (runLoop codec Write fuel st).1 := by
  induction fuel generalizing st with
  | zero => exact hinv
  | succ fuel ih =>
    rw [runLoop]
    split_ifs
    · exact loopBody_inv codec hfull Write st hinv
    · exact ih _ (loopBody_inv codec hfull Write st hinv)

theorem pumpInit_inv {σ κ : Type} (fdin : BrotliFdIn) (fdout : σ) (s0 : κ)
    (output0 : Nat → Nat) : PumpInv (pumpInit fdin fdout s0 output0 : PumpState σ κ) := by
  refine ⟨by simp [pumpInit], ?_, ?_⟩
  · intro h; simp [pumpInit] at h
  · intro _; simp [pumpInit, PumpState.written, bufRead_zero]

theorem drain_written {σ κ : Type} (Write : Sink σ) (st : PumpState σ κ) (hinv : PumpInv st)
    (hok : (drain Write st).allWritesOk) :
    (drain Write st).written = (drain Write st).produced := by
  obtain ⟨_, _, h3⟩ := hinv
  unfold drain at hok ⊢
  by_cases hn : st.next_out ≠ 0
  · rw [if_pos hn] at hok ⊢
    have hprev : st.allWritesOk := by
      intro b hb
      exact hok b (by simp only [List.mem_append]; exact Or.inl hb)
    have := h3 hprev
    simp only [PumpState.written, List.map_append, List.flatten_append, List.map_cons,
      List.map_nil, List.flatten_cons, List.flatten_nil, List.append_nil]
    simpa [PumpState.written] using this
  · rw [if_neg hn] at hok ⊢
    have h0 : st.next_out = 0 := by omega
    have := h3 hok
    rw [h0, bufRead_zero, List.append_nil] at this
    exact this

/-- C5 (amended). For every input, every sink and every codec that signals
`NEEDS_MORE_OUTPUT` only when it has used up the output space it was given:
at every point of the loop, if all writes so far have succeeded, the bytes
passed to `Write` followed by the bytes pending in the output buffer are the
bytes the codec has stored; and when `Decompress` ends with all its writes
(the drain included) successful, the blocks it passed to `Write`, joined in
order, are exactly the bytes the codec stored. -/
theorem Decompress_writes_what_codec_stored {σ κ : Type} (codec : Codec κ)
    (hfull : FillsBeforeNeedsOutput codec) (Write : Sink σ) (fuel : Nat) (fdin : BrotliFdIn)
    (fdout : σ) (s0 : κ) (output0 : Nat → Nat) :
    ((runLoop codec Write fuel (pumpInit fdin fdout s0 output0)).1.allWritesOk →
      (runLoop codec Write fuel (pumpInit fdin fdout s0 output0)).1.written
          ++ bufRead (runLoop codec Write fuel (pumpInit fdin fdout s0 output0)).1.output
              (runLoop codec Write fuel (pumpInit fdin fdout s0 output0)).1.next_out
        = (runLoop codec Write fuel (pumpInit fdin fdout s0 output0)).1.produced) ∧
    (∀ st e, Decompress codec Write fuel fdin fdout s0 output0 = some (st, e) →
      st.allWritesOk → st.written = st.produced) := by
  have hinv := runLoop_inv codec hfull Write fuel _ (pumpInit_inv fdin fdout s0 output0)
  refine ⟨hinv.2.2, ?_⟩
  intro st e h hok
  unfold Decompress at h
  simp only at h
  split_ifs at h
  simp only [Option.some.injEq, Prod.mk.injEq] at h
  obtain ⟨hst, _⟩ := h
  subst hst
  exact drain_written Write _ hinv hok

theorem codecFill_fills : FillsBeforeNeedsOutput codecFill := by
  intro s available_in window available_out h
  cases s <;> simp [codecFill] at h ⊢

/-- Witness for C5 (amended): the codec `codecFill`, which fills the whole
buffer, asks for more output and then stores one more byte, run against a sink
that accepts every block. -/
theorem Decompress_writes_what_codec_stored_witness :
    FillsBeforeNeedsOutput codecFill ∧
    ∃ st e, Decompress codecFill sinkAccepts 3 (sourceOf [ReadResp.data [1]]) () false
        (fun _ => 0) = some (st, e) ∧
      e = PumpEnd.returned_true ∧ st.blocks.length = 2 ∧ st.written = st.produced :=
  ⟨codecFill_fills, _, _, rfl, rfl, rfl,
    (Decompress_writes_what_codec_stored codecFill codecFill_fills sinkAccepts 3
      (sourceOf [ReadResp.data [1]]) () false (fun _ => 0)).2 _ _ rfl (by decide)⟩

/-- C5 (counterexample). The codec `codecEarlyFlush` stores one byte and signals
`NEEDS_MORE_OUTPUT` with the buffer not full.  All writes succeed, the codec has
stored the single byte `7`, and `Decompress` has passed 65536 bytes to the
sink. -/
theorem Decompress_early_flush_adds_bytes :
    ∃ st e, Decompress codecEarlyFlush sinkAccepts 3 (sourceOf [ReadResp.data [1]]) () false
        (fun _ => 0) = some (st, e) ∧
      st.allWritesOk ∧ st.produced = [7] ∧ st.written.length = 65536 ∧
      st.written ≠ st.produced := by
  refine ⟨_, _, rfl, by decide, rfl, ?_, ?_⟩
  · simp [PumpState.written, drain, runLoop, loopBody, callCodec, pumpInit, codecEarlyFlush,
      sinkAccepts, sourceOf, BrotliFdIn.Read, BrotliFdIn.is_eof, read_retry, to_size_t,
      bufRead_length, kFileBufferSize]
  · intro h
    have := congrArg List.length h
    simp [PumpState.written, drain, runLoop, loopBody, callCodec, pumpInit, codecEarlyFlush,
      sinkAccepts, sourceOf, BrotliFdIn.Read, BrotliFdIn.is_eof, read_retry, to_size_t,
      bufRead_length, kFileBufferSize] at this

theorem callCodec_blocks {σ κ : Type} (codec : Codec κ) (st : PumpState σ κ) :
    (callCodec codec st).blocks = st.blocks := rfl

theorem loopBody_writes {σ κ : Type} (codec : Codec κ) (Write : Sink σ) (st : PumpState σ κ)
    (hok : st.allWritesOk) :
    ((loopBody codec Write st).2 = false → (loopBody codec Write st).1.allWritesOk) ∧
    ((loopBody codec Write st).1.allWritesOk
      ∨ (loopBody codec Write st).1.result = BROTLI_RESULT_NEEDS_MORE_OUTPUT) := by
  unfold loopBody
  by_cases hin : st.result = BROTLI_RESULT_NEEDS_MORE_INPUT
  · rw [if_pos hin]
    by_cases heof : st.fdin.is_eof = true
    · rw [if_pos heof]; exact ⟨fun _ => hok, Or.inl hok⟩
    · rw [if_neg heof]
      simp only
      split_ifs
      · exact ⟨fun _ => hok, Or.inl hok⟩
      · exact ⟨fun _ => hok, Or.inl hok⟩
  · rw [if_neg hin]
    by_cases hout : st.result = BROTLI_RESULT_NEEDS_MORE_OUTPUT
    · rw [if_pos hout]
      simp only
      split_ifs with hw
      · exact ⟨fun h => by simp at h, Or.inr hout⟩
      · have hall : ∀ b ∈ st.blocks ++ [(bufRead st.output kFileBufferSize,
            (Write st.fdout (bufRead st.output kFileBufferSize)).1)], b.2 = true := by
          intro b hb
          rcases List.mem_append.mp hb with h | h
          · exact hok b h
          · have hb2 : b = (bufRead st.output kFileBufferSize,
                (Write st.fdout (bufRead st.output kFileBufferSize)).1) := by simpa using h
            rw [hb2]
            simpa using hw
        exact ⟨fun _ => hall, Or.inl hall⟩
    · rw [if_neg hout]; exact ⟨fun _ => hok, Or.inl hok⟩

theorem runLoop_writes {σ κ : Type} (codec : Codec κ) (Write : Sink σ) (fuel : Nat)
    (st : PumpState σ κ) (hok : st.allWritesOk) :
    (runLoop codec Write fuel st).1.allWritesOk
      ∨ (runLoop codec Write fuel st).1.result = BROTLI_RESULT_NEEDS_MORE_OUTPUT := by
  induction fuel generalizing st with
  | zero => exact Or.inl hok
  | succ fuel ih =>
    have hb := loopBody_writes codec Write st hok
    rw [runLoop]
    split_ifs with hleft
    · exact hb.2
    · exact ih _ (hb.1 (by simpa using hleft))

theorem classify_returned_true_iff (result : BrotliResult) :
    classify result = PumpEnd.returned_true ↔ result = BROTLI_RESULT_SUCCESS := by
  cases result <;> simp [classify]

theorem drain_result {σ κ : Type} (Write : Sink σ) (st : PumpState σ κ) :
    (drain Write st).result = st.result := by
  unfold drain
  split_ifs <;> rfl

/-- When `Decompress` ends, it returns true exactly when the codec's last signal
is `BROTLI_RESULT_SUCCESS`; and when it returns true, every write made inside
the loop succeeded: the blocks passed to the sink are blocks whose writes
succeeded, followed by at most one block, the drain, whose result is not
looked at. -/
theorem Decompress_returns_true_iff {σ κ : Type} (codec : Codec κ) (Write : Sink σ)
    (fuel : Nat) (fdin : BrotliFdIn) (fdout : σ) (s0 : κ) (output0 : Nat → Nat)
    (st : PumpState σ κ) (e : PumpEnd)
    (h : Decompress codec Write fuel fdin fdout s0 output0 = some (st, e)) :
    (e = PumpEnd.returned_true ↔ st.result = BROTLI_RESULT_SUCCESS) ∧
    (e = PumpEnd.returned_true →
      ∃ pre last, st.blocks = pre ++ last ∧ last.length ≤ 1 ∧ ∀ b ∈ pre, b.2 = true) := by
  have hloop := runLoop_writes codec Write fuel (pumpInit fdin fdout s0 output0)
    (by intro b hb; simp [pumpInit] at hb)
  unfold Decompress at h
  simp only at h
  split_ifs at h
  simp only [Option.some.injEq, Prod.mk.injEq] at h
  obtain ⟨hst, he⟩ := h
  subst hst
  subst he
  refine ⟨classify_returned_true_iff _, ?_⟩
  intro hret
  have hres := (classify_returned_true_iff _).mp hret
  rw [drain_result] at hres
  have hpre : (runLoop codec Write fuel (pumpInit fdin fdout s0 output0)).1.allWritesOk := by
    rcases hloop with h1 | h1
    · exact h1
    · rw [hres] at h1; cases h1
  unfold drain
  split_ifs
  · exact ⟨_, _, rfl, by simp, hpre⟩
  · exact ⟨_, [], by simp, by simp, hpre⟩

/-- Witness for `Decompress_returns_true_iff`: the run of `codecFill` against a
sink that accepts every block returns true. -/
theorem Decompress_returns_true_iff_witness :
    ∃ st, Decompress codecFill sinkAccepts 3 (sourceOf [ReadResp.data [1]]) () false
        (fun _ => 0) = some (st, PumpEnd.returned_true) ∧
      st.result = BROTLI_RESULT_SUCCESS :=
  ⟨_, rfl, (Decompress_returns_true_iff codecFill sinkAccepts 3
    (sourceOf [ReadResp.data [1]]) () false (fun _ => 0) _ _ rfl).1.mp rfl⟩

/-! ## Theorems: the body of `main` -/

/-- C7 (the code at the failing input). Header-prefixed decompress mode on a
stream of 24 bytes `'x'` followed by the payload `1, 2, 3`: `parseHeader`
rejects the 24 bytes, yet the pass goes on, offers the payload to the codec and
ends with `custom_exit(SUCCESS)`. -/
theorem malformed_header_reaches_codec :
    (parseHeader (List.replicate 24 120) false).ok = false ∧
    mainPass (worldOf true CompressEnd.ok codecAcceptAll) (headerDecompress false) 3
        (sourceOf [ReadResp.data (List.replicate 24 120 ++ [1, 2, 3])]) ()
      = some { ending := Ending.custom_exit ExitCode.SUCCESS, stderr := [], unlinked := false
               fed := [[1, 2, 3]] } := by
  constructor
  · decide
  · decide

/-- C8 (the code at the failing inputs). With the jail installed: a failed
compression prints `"compression failed\n"`, corrupt input to decompress prints
`"corrupt input\n"` and leaves through `exit(1)`; only the allocation failure
prints nothing. -/
theorem jailed_failures_still_print :
    mainPass (worldOf true CompressEnd.failed codecAcceptAll) (plainCompress false) 3
        (sourceOf []) ()
      = some { ending := Ending.custom_exit ExitCode.ASSERTION_FAILURE
               stderr := ["compression failed\n"], unlinked := false, fed := [] } ∧
    mainPass (worldOf true CompressEnd.ok codecReject) (plainDecompress false) 3
        (sourceOf [ReadResp.data [1, 2, 3, 4, 5]]) ()
      = some { ending := Ending.exit 1, stderr := ["corrupt input\n"], unlinked := false
               fed := [[1, 2, 3, 4, 5]] } ∧
    mainPass (worldOf true CompressEnd.bad_alloc codecAcceptAll) (plainCompress false) 3
        (sourceOf []) ()
      = some { ending := Ending.custom_exit ExitCode.OOM, stderr := [], unlinked := false
               fed := [] } := by
  refine ⟨?_, ?_, ?_⟩ <;> decide

theorem read_retry_noReadError (fd : List ReadResp) (buf : Nat → Nat) (k : Nat)
    (h : noReadError fd = true) :
    ∃ m : Nat, (read_retry fd buf k).1 = (m : Int) ∧ m ≤ k ∧
      totalBytes (read_retry fd buf k).2.2 + m = totalBytes fd ∧
      noReadError (read_retry fd buf k).2.2 = true := by
  induction fd with
  | nil => exact ⟨0, by simp [read_retry], by omega, by simp [read_retry, totalBytes], by
      simp [read_retry, noReadError]⟩
  | cons r rest ih =>
    cases r with
    | interrupted =>
      obtain ⟨m, h1, h2, h3, h4⟩ := ih (by simpa [noReadError] using h)
      exact ⟨m, by simpa [read_retry] using h1, h2, by simpa [read_retry, totalBytes] using h3,
        by simpa [read_retry] using h4⟩
    | error => simp [noReadError] at h
    | data chunk =>
      have hrest : noReadError rest = true := by simpa [noReadError] using h
      refine ⟨(chunk.take k).length, by simp [read_retry], by simp, ?_, ?_⟩
      · simp only [read_retry]
        split_ifs with hlt
        · simp only [totalBytes, List.length_drop, List.length_take]; omega
        · simp only [totalBytes, List.length_take]; omega
      · simp only [read_retry]
        split_ifs
        · simpa [noReadError] using hrest
        · exact hrest

theorem Read_noReadError (self : BrotliFdIn) (k : Nat) (hk : 0 < k) (hk2 : k ≤ kFileBufferSize)
    (h : noReadError self.fd_ = true) :
    (self.Read k 0).bytes_read ≤ k ∧
      totalBytes (self.Read k 0).self.fd_ + (self.Read k 0).bytes_read = totalBytes self.fd_ ∧
      noReadError (self.Read k 0).self.fd_ = true := by
  have hclamp : (if k > kFileBufferSize then kFileBufferSize else k) = k := by
    split_ifs <;> omega
  obtain ⟨m, h1, h2, h3, h4⟩ := read_retry_noReadError self.fd_ self.buf_ k h
  have hkf : kFileBufferSize = 65536 := rfl
  have hsz : to_size_t (read_retry self.fd_ self.buf_ k).1 = m := by
    rw [h1]; exact to_size_t_ofNat m (by omega)
  have hk0 : ¬ (k = 0) := by omega
  unfold BrotliFdIn.Read
  rw [if_neg hk0]
  simp only [hclamp, hsz]
  by_cases hm0 : m = 0
  · simp only [hm0, if_true]
    subst hm0
    exact ⟨by omega, h3, h4⟩
  · simp only [hm0, if_false]
    exact ⟨h2, h3, h4⟩

theorem readHeader_incomplete (passes : Nat) (src : BrotliFdIn) (header : List Nat)
    (hne : noReadError src.fd_ = true) (htot : header.length + totalBytes src.fd_ < 24)
    (hp : totalBytes src.fd_ < passes) :
    readHeader passes src header = Sum.inl (Ending.custom_exit ExitCode.STREAM_INCONSISTENT) := by
  induction passes generalizing src header with
  | zero => omega
  | succ p ih =>
    have hn : header.length < header_size := by simp only [header_size]; omega
    obtain ⟨h1, h2, h3⟩ := Read_noReadError src (header_size - header.length)
      (by simp only [header_size]; omega) (by simp only [header_size, kFileBufferSize]; omega) hne
    rw [readHeader]
    simp only [hn, if_true]
    by_cases h0 : (src.Read (header_size - header.length) 0).bytes_read = 0
    · rw [if_pos h0]
    · rw [if_neg h0, if_neg (by omega)]
      apply ih
      · exact h3
      · rw [List.length_append, bufRead_length]; omega
      · omega

/-- In header-prefixed decompress mode, when the reads fail with no error and
the stream ends before 24 bytes have been read, the pass ends with
`custom_exit(STREAM_INCONSISTENT)`, prints nothing and offers nothing to the
codec, whatever the chunking of the reads. -/
theorem incomplete_header_is_stream_inconsistent {σ κ : Type} (w : World σ κ) (cfg : Config)
    (fuel : Nat) (brotli_in : BrotliFdIn) (brotli_out : σ)
    (hmode : cfg.decompress = true ∧ cfg.prependHeader = true)
    (hjail : (cfg.enforce_jail && !w.jailed) = false)
    (hne : noReadError brotli_in.fd_ = true) (hshort : totalBytes brotli_in.fd_ < 24) :
    mainPass w cfg fuel brotli_in brotli_out
      = some { ending := Ending.custom_exit ExitCode.STREAM_INCONSISTENT, stderr := []
               unlinked := false, fed := [] } := by
  have h := readHeader_incomplete 24 brotli_in [] hne (by simpa using hshort) hshort
  unfold mainPass
  simp [hjail, hmode.1, hmode.2, h]

/-- Witness for `incomplete_header_is_stream_inconsistent`: 23 header bytes
delivered in two chunks around an interruption. -/
theorem incomplete_header_is_stream_inconsistent_witness :
    mainPass (worldOf true CompressEnd.ok codecAcceptAll) (headerDecompress false) 3
        (sourceOf [ReadResp.data (List.replicate 10 98), ReadResp.interrupted,
          ReadResp.data (List.replicate 13 114)]) ()
      = some { ending := Ending.custom_exit ExitCode.STREAM_INCONSISTENT, stderr := []
               unlinked := false, fed := [] } :=
  incomplete_header_is_stream_inconsistent _ _ 3 _ () (by decide) (by decide) (by decide)
    (by decide)

end Secbrot
